import Mathlib

/-!
# Verification of the gurx reactive dependency-graph engine

Shallow embedding of `src/realm.ts` (the `realm()` engine variant, the one the
claims reference by line numbers) together with the parts of
`src/operators.ts` the claims need.

Conventions of the embedding:

* Node identifiers (JS `Symbol()`) are `Nat`; the engine allocates fresh ones
  from the `fresh` counter field.
* JS values flowing through the graph are `JVal` (`undef` models
  `undefined`, `num` models numbers, `arr` models arrays).  Structural
  equality of `JVal` models JS `===` (exact for `undefined`/numbers, which is
  all the distinctness claims exercise; when a claim publishes "the exact
  value already held", reference equality and structural equality agree).
* JS `Map` is `NMap α := List (Nat × α)` with JS `Map.set` semantics
  (in-place update, insertion order preserved); JS `Set` is a `List` with
  membership-guarded append, preserving JS Set insertion-iteration order.
* A projection's `map` callback (`(done) => (...args) => void`) is modelled
  as `List JVal → TOut`: the (possibly empty) sequence of `done(...)` calls
  the callback makes, plus whether it then throws.  Subscribers are
  `JVal → Bool` (`true` = the callback throws).  The subscriber-invocation
  log of the engine is recorded in the `log` field, one entry per subscriber
  call, so notification counts and order are observable.
* The recursive `visit` of `calculateExecutionMap`, the pruning
  `nodeWillNotEmit` and the `pubIn` walk are given explicit fuel; the fuel
  chosen at the call sites dominates the recursion depth for every graph on
  which the JS code terminates (for source-cyclic graphs the JS recursion
  does not terminate, which the spec declares a fatal misuse).
-/

/-- JS runtime values as far as the engine observes them.  Arrays are
encoded as cons cells (`anil`/`acons`) so that equality stays derivable. -/
inductive JVal where
  | undef
  | num (n : Nat)
  | anil
  | acons (head tail : JVal)
deriving DecidableEq, Repr

/-- Build the `JVal` encoding of a JS array from a list of values. -/
def JVal.ofList (vs : List JVal) : JVal :=
  vs.foldr .acons .anil

/-- Association list with JS `Map` semantics, keyed by node ids. -/
abbrev NMap (α : Type) := List (Nat × α)

/-- JS `Map.get`: value at the key, if present. -/
def nmLookup {α : Type} : NMap α → Nat → Option α
  | [], _ => none
  | (k', v) :: rest, k => if k' = k then some v else nmLookup rest k

/-- The `Map.get` with an explicit default (JS returns `undefined` when absent). -/
def nmGetD {α : Type} (m : NMap α) (k : Nat) (d : α) : α :=
  (nmLookup m k).getD d

/-- JS `Map.has`. -/
def nmHas {α : Type} (m : NMap α) (k : Nat) : Bool :=
  (nmLookup m k).isSome

/-- JS `Map.set`: replace in place if the key exists, append otherwise. -/
def nmSet {α : Type} : NMap α → Nat → α → NMap α
  | [], k, v => [(k, v)]
  | (k', v') :: rest, k, v =>
    if k' = k then (k, v) :: rest else (k', v') :: nmSet rest k v

/-- JS `Set` built from a list: keep the first occurrence of each element,
in order.  Used by `nodesToKeySet` and wherever the source constructs a
`Set` from an array. -/
def jsSet (l : List Nat) : List Nat :=
  l.foldl (fun acc x => if x ∈ acc then acc else acc ++ [x]) []

/-- The `SetMap.getOrCreate(k).add(v)`: append `v` to the set at `k` unless
already present (the entry is created if missing). -/
def smAdd (m : NMap (List Nat)) (k : Nat) (v : Nat) : NMap (List Nat) :=
  let cur := nmGetD m k []
  if v ∈ cur then nmSet m k cur else nmSet m k (cur ++ [v])

/-- JS `Array.prototype.indexOf`: position of the first occurrence, `-1` if
absent. -/
def jsIndexOf : List Nat → Nat → Int
  | [], _ => -1
  | x :: xs, y =>
    if x = y then 0
    else
      let r := jsIndexOf xs y
      if r = -1 then -1 else r + 1

/-- The `Array.prototype.splice(i, 0, a)`: insert at position `i`, clamped to the
end of the array. -/
def insertAt {α : Type} : List α → Nat → α → List α
  | l, 0, a => a :: l
  | [], _ + 1, a => [a]
  | x :: xs, i + 1, a => x :: insertAt xs i a

/-- The `participatingNodeKeys.splice(participatingNodeKeys.indexOf(sink), 1)`:
remove the first occurrence; when the element is absent `indexOf` is `-1`
and JS `splice(-1, 1)` removes the last element instead. -/
def jsSpliceRemove (l : List Nat) (x : Nat) : List Nat :=
  if x ∈ l then l.erase x else l.dropLast

/-- The `defaultComparator` from realm.ts: `current === next`. -/
def defaultComparator (current next : JVal) : Bool :=
  decide (current = next)

/-- Result of running one projection `map` callback: the `done(...)` calls it
performs, in order, and whether it throws afterwards. -/
structure TOut where
  dones : List JVal
  throws : Bool
deriving Inhabited

/-- The `RealmProjection`: active sources, passive pulls, one sink, and the
transform callback.  Sources and pulls are JS `Set`s (deduplicated,
insertion-ordered). -/
structure Projection where
  sources : List Nat
  pulls : List Nat
  sink : Nat
  transform : List JVal → TOut

/-- The execution plan produced by `calculateExecutionMap`. -/
structure ExecutionMap where
  participatingNodes : List Nat
  pendingPulls : NMap (List Nat)
  projections : NMap (List Nat)
  refCount : NMap Int
deriving DecidableEq

/-- The mutable state of one engine instance created by `realm()`.
Projections are stored in an append-only table `projs`; the dependency
`graph` and the plans index them by table position, which models JS object
identity inside the engine's `Set`s. -/
structure Realm where
  subscriptions : NMap (List (JVal → Bool))
  singletonSubscriptions : NMap (JVal → Bool)
  graph : NMap (List Nat)
  projs : List Projection
  state : NMap JVal
  distinctNodes : NMap (JVal → JVal → Bool)
  executionMaps : List ((Nat ⊕ List Nat) × ExecutionMap)
  definitionRegistry : List Nat
  fresh : Nat
  log : List (Nat × JVal)

/-- The `realm(initialValues)`: the initial-state map is copied into the State
Store at construction; nothing else happens (no publish, no notification). -/
def realm (initialValues : NMap JVal) : Realm :=
  { subscriptions := []
    singletonSubscriptions := []
    graph := []
    projs := []
    state := initialValues
    distinctNodes := []
    executionMaps := []
    definitionRegistry := []
    fresh := 0
    log := [] }

/-- Projection lookup by table position (JS holds object references; the
default is never reached for indices stored by `connect`). -/
def getProj (r : Realm) (pid : Nat) : Projection :=
  r.projs.getD pid ⟨[], [], 0, fun _ => ⟨[], false⟩⟩

/-- The mutable closure state of `calculateExecutionMap`'s recursive
`visit`. -/
structure VisitSt where
  participatingNodes : List Nat
  visitedNodes : List Nat
  pendingPulls : NMap (List Nat)
  refCount : NMap Int
  projections : NMap (List Nat)

/-- Modelled from the spec: `RefCount.increment` (the `RefCount` helper class
is imported by realm.ts but its file is not part of the sources; the spec
describes it as a per-id visit tally defaulting to zero). -/
def rcIncrement (m : NMap Int) (k : Nat) : NMap Int :=
  nmSet m k (nmGetD m k 0 + 1)

/-- The continuation frames of the recursive `visit` of
`calculateExecutionMap`, defunctionalized so the recursion is structural on
fuel (the JS recursion is a call stack; `node id idx` is a pending
`visit(id, idx)` call, `pend id idx pids` is the rest of the
`graph.use(id, ...)` loop of an active `visit(id, _)` call whose computed
insertion index is `idx`, followed by that call's trailing
`visitedNodes.add` and `splice`). -/
inductive VFrame where
  | node (id : Nat) (idx : Nat)
  | pend (id : Nat) (idx : Nat) (pids : List Nat)

/-- The recursive `visit(id, insertIndex)` of `calculateExecutionMap`, run
as a stack machine: increment the ref-count, stop on revisit, override the
insertion index from the pending pulls recorded so far, walk the
projections indexed under `id` — recursing into the sink of each one that
lists `id` as an active source and recording pull-only references as
pending pulls on their sink — then splice `id` into the order at the
captured index.  An empty stack stops regardless of remaining fuel. -/
def visitRun (r : Realm) : Nat → List VFrame → VisitSt → VisitSt
  | 0, _, s => s
  | _ + 1, [], s => s
  | fuel + 1, .node id idxArg :: stack, s =>
    let s := { s with refCount := rcIncrement s.refCount id }
    if id ∈ s.visitedNodes then visitRun r fuel stack s
    else
      let idx :=
        match nmLookup s.pendingPulls id with
        | some pulls =>
          (((pulls.map (jsIndexOf s.participatingNodes)).foldl max (-1)) + 1).toNat
        | none => idxArg
      visitRun r fuel (.pend id idx (nmGetD r.graph id []) :: stack) s
  | fuel + 1, .pend id idx [] :: stack, s =>
    let s := { s with visitedNodes := s.visitedNodes ++ [id] }
    visitRun r fuel stack
      { s with participatingNodes := insertAt s.participatingNodes idx id }
  | fuel + 1, .pend id idx (pid :: rest) :: stack, s =>
    let p := getProj r pid
    if id ∈ p.sources then
      let s := { s with projections := smAdd s.projections p.sink pid }
      visitRun r fuel (.node p.sink idx :: .pend id idx rest :: stack) s
    else
      visitRun r fuel (.pend id idx rest :: stack)
        { s with pendingPulls := smAdd s.pendingPulls p.sink id }

/-- Fuel that dominates the number of machine steps of any terminating
traversal: quadratic in the total size of the dependency-graph index (the
JS recursion does not terminate at all on active-source cycles; there the
machine truncates instead, which the spec classes as fatal misuse
territory). -/
def traversalFuel (r : Realm) (ids : List Nat) : Nat :=
  let s := r.graph.foldl (fun a e => a + e.2.length) 0
  (s + 2) * (s + 2) + r.projs.length + ids.length + 2

/-- One `visit(id, insertIndex)` call of `calculateExecutionMap`. -/
def visit (r : Realm) (fuel id idx : Nat) (s : VisitSt) : VisitSt :=
  visitRun r fuel [.node id idx] s

/-- The `calculateExecutionMap(ids)`: run `visit` from every touched id.
`ids.forEach(visit)` passes the array index as `visit`'s second argument, so
the k-th touched id starts with insertion index k. -/
def calculateExecutionMap (r : Realm) (ids : List Nat) : ExecutionMap :=
  let fuel := traversalFuel r ids
  let s :=
    ids.enum.foldl (fun s p => visit r fuel p.2 p.1 s)
      ⟨[], [], [], [], []⟩
  ⟨s.participatingNodes, s.pendingPulls, s.projections, s.refCount⟩

/-- The cache scan of `getExecutionMap` for multi-id keys: the first stored
array key with the same length whose every element occurs in `ids`. -/
def scanCache (entries : List ((Nat ⊕ List Nat) × ExecutionMap)) (ids : List Nat) :
    Option ExecutionMap :=
  match entries with
  | [] => none
  | (Sum.inl _, _) :: rest => scanCache rest ids
  | (Sum.inr key, m) :: rest =>
    if key.length = ids.length ∧ ∀ k ∈ key, k ∈ ids then some m
    else scanCache rest ids

/-- The `getExecutionMap(ids)`: single-id fast path by direct lookup, multi-id
linear scan with set-compatibility; on a miss the plan is computed and
cached (under the single symbol for one id, under the id array otherwise). -/
def getExecutionMap (r : Realm) (ids : List Nat) : ExecutionMap × Realm :=
  if ids.length = 1 then
    let key := ids.headD 0
    match nmLookupCache r.executionMaps key with
    | some m => (m, r)
    | none =>
      let m := calculateExecutionMap r ids
      (m, { r with executionMaps := r.executionMaps ++ [(Sum.inl key, m)] })
  else
    match scanCache r.executionMaps ids with
    | some m => (m, r)
    | none =>
      let m := calculateExecutionMap r ids
      (m, { r with executionMaps := r.executionMaps ++ [(Sum.inr ids, m)] })
where
  nmLookupCache : List ((Nat ⊕ List Nat) × ExecutionMap) → Nat → Option ExecutionMap
    | [], _ => none
    | (Sum.inl k', m) :: rest, k => if k' = k then some m else nmLookupCache rest k
    | (Sum.inr _, _) :: rest, k => nmLookupCache rest k

/-- The per-node working state threaded through `done` calls while one id of
the plan is being processed: the `resolved` flag, the transient map, and the
committed State Store. -/
structure DoneSt where
  resolved : Bool
  transient : NMap JVal
  state : NMap JVal

/-- One `done(value)` call while processing node `id` in `pubIn`: a distinct
comparator reporting the candidate equal to the previous transient value
resets `resolved` and changes nothing else; otherwise the value is written
to the transient map and, when the node is stateful, committed. -/
def applyDone (distinctNodes : NMap (JVal → JVal → Bool)) (id : Nat)
    (st : DoneSt) (value : JVal) : DoneSt :=
  let suppressed :=
    match nmLookup distinctNodes id with
    | some cmp => cmp (nmGetD st.transient id .undef) value
    | none => false
  if suppressed then { st with resolved := false }
  else
    { resolved := true
      transient := nmSet st.transient id value
      state := if nmHas st.state id then nmSet st.state id value else st.state }

/-- Run the projections indexed under the current id in the plan, in order:
each projection's transform receives the transient values of its sources
followed by its pulls, its `done` calls are applied, and a throw aborts the
cycle (`true` in the second component). -/
def runProjs (r : Realm) (id : Nat) : List Nat → DoneSt → DoneSt × Bool
  | [], st => (st, false)
  | pid :: rest, st =>
    let p := getProj r pid
    let args := (p.sources ++ p.pulls).map fun k => nmGetD st.transient k .undef
    let out := p.transform args
    let st := out.dones.foldl (applyDone r.distinctNodes id) st
    if out.throws then (st, true) else runProjs r id rest st

/-- Invoke the regular subscribers of `id` in registration order, recording
one log entry per invocation; a throwing subscriber aborts the cycle after
its own entry. -/
def notifySubs (id : Nat) (value : JVal) :
    List (JVal → Bool) → List (Nat × JVal) → List (Nat × JVal) × Bool
  | [], log => (log, false)
  | s :: rest, log =>
    let log := log ++ [(id, value)]
    if s value then (log, true) else notifySubs id value rest log

/-- The recursive pruning walk `nodeWillNotEmit` of `pubIn`, run as a stack
machine over `(key, remaining projection list)` frames: for every projection
keyed under an unresolved node where that node is an active source,
decrement the sink's cloned ref-count (the decrement is inlined here and,
like `rcIncrement`, modelled from the spec because `RefCount.ts` is not
among the sources: a no-op on absent keys, firing its callback exactly when
the counter reaches 0);
on zero, splice the sink out of the remaining order and recurse into the
sink's own projection list before resuming.  An empty stack stops
regardless of remaining fuel. -/
def nwneRun (r : Realm) :
    Nat → List (Nat × List Nat) → NMap Int × List Nat → NMap Int × List Nat
  | 0, _, acc => acc
  | _ + 1, [], acc => acc
  | fuel + 1, (_, []) :: stack, acc => nwneRun r fuel stack acc
  | fuel + 1, (key, pid :: rest) :: stack, acc =>
    let p := getProj r pid
    if key ∈ p.sources then
      match nmLookup acc.1 p.sink with
      | none => nwneRun r fuel ((key, rest) :: stack) acc
      | some counter =>
        let counter := counter - 1
        let rc := nmSet acc.1 p.sink counter
        if counter = 0 then
          nwneRun r fuel
            ((p.sink, nmGetD r.graph p.sink []) :: (key, rest) :: stack)
            (rc, jsSpliceRemove acc.2 p.sink)
        else nwneRun r fuel ((key, rest) :: stack) (rc, acc.2)
    else nwneRun r fuel ((key, rest) :: stack) acc

/-- One `nodeWillNotEmit(key)` call of `pubIn`. -/
def nodeWillNotEmit (r : Realm) (fuel key : Nat) (acc : NMap Int × List Nat) :
    NMap Int × List Nat :=
  nwneRun r fuel [(key, nmGetD r.graph key [])] acc

/-- The loop state of `pubIn`'s walk over the plan. -/
structure LoopSt where
  keys : List Nat
  refCount : NMap Int
  transient : NMap JVal
  state : NMap JVal
  log : List (Nat × JVal)
  errored : Bool

/-- Process one id of the plan: externally supplied values are committed
directly through `done`, otherwise every projection of the plan indexed
under the id runs.  Returns the done-state, whether a transform threw, and
whether the id resolved. -/
def processNode (r : Realm) (values : NMap JVal) (projections : NMap (List Nat))
    (id : Nat) (transient state : NMap JVal) : DoneSt × Bool :=
  let st0 : DoneSt := ⟨false, transient, state⟩
  if nmHas values id then
    (applyDone r.distinctNodes id st0 (nmGetD values id .undef), false)
  else
    runProjs r id (nmGetD projections id []) st0

/-- The walk of `pubIn`: shift the head of the remaining order, process it,
notify its subscribers (regular ones in order, then the singleton) when it
resolved, otherwise prune its downstream; a throw anywhere stops the walk
with `errored` set. -/
def pubLoop (r : Realm) (values : NMap JVal) (projections : NMap (List Nat)) :
    Nat → LoopSt → LoopSt
  | 0, st => st
  | fuel + 1, st =>
    match st.keys with
    | [] => st
    | id :: rest =>
      let st := { st with keys := rest }
      let pr := processNode r values projections id st.transient st.state
      let dst := pr.1
      let st := { st with transient := dst.transient, state := dst.state }
      if pr.2 then { st with errored := true }
      else if dst.resolved then
        let value := nmGetD dst.transient id .undef
        let n1 := notifySubs id value (nmGetD r.subscriptions id []) st.log
        if n1.2 then { st with log := n1.1, errored := true }
        else
          match nmLookup r.singletonSubscriptions id with
          | some s =>
            let log := n1.1 ++ [(id, value)]
            if s value then { st with log := log, errored := true }
            else pubLoop r values projections fuel { st with log := log }
          | none => pubLoop r values projections fuel { st with log := n1.1 }
      else
        let pruned := nodeWillNotEmit r (traversalFuel r []) id (st.refCount, st.keys)
        pubLoop r values projections fuel
          { st with refCount := pruned.1, keys := pruned.2 }

/-- The `pubIn(values)` with an explicitly chosen execution map (factored so the
cached and the from-scratch variants share the walk).  Returns the updated
realm and whether an exception escaped to the caller. -/
def pubInWith (r : Realm) (values : NMap JVal) (m : ExecutionMap) : Realm × Bool :=
  let st0 : LoopSt :=
    { keys := m.participatingNodes
      refCount := m.refCount
      transient := r.state
      state := r.state
      log := r.log
      errored := false }
  let st := pubLoop r values m.projections m.participatingNodes.length st0
  ({ r with state := st.state, log := st.log }, st.errored)

/-- The `pubIn(values)`: resolve the execution plan through the cache
(`getExecutionMap`), clone its ref-count and order, snapshot the State Store
into the transient map, and walk the plan.  The walk never reads the plan
cache, so the cache update commutes with it and is applied to the result. -/
def pubIn (r : Realm) (values : NMap JVal) : Realm × Bool :=
  let ids := values.map Prod.fst
  let mr := getExecutionMap r ids
  let res := pubInWith r values mr.1
  ({ res.1 with executionMaps := mr.2.executionMaps }, res.2)

/-- The comparison run for the plan-reuse claim: identical to `pubIn` except
that the execution map is always recomputed from scratch by
`calculateExecutionMap`, bypassing the cache. -/
def pubInNoCache (r : Realm) (values : NMap JVal) : Realm × Bool :=
  let ids := values.map Prod.fst
  pubInWith r values (calculateExecutionMap r ids)

/-- The `distinct` argument accepted by cell/signal constructors:
`false`, `true` (default comparator), or a custom comparator. -/
inductive Distinct where
  | fls
  | tru
  | cmp (f : JVal → JVal → Bool)

/-- The `cellInstance(value, distinct, id)` for a caller-chosen id: seed the
State Store unless the slot is already occupied, and record the distinct
comparator when requested. -/
def cellInstanceAt (r : Realm) (value : JVal) (distinct : Distinct) (id : Nat) :
    Realm :=
  let r :=
    if nmHas r.state id then r else { r with state := nmSet r.state id value }
  match distinct with
  | .fls => r
  | .tru => { r with distinctNodes := nmSet r.distinctNodes id defaultComparator }
  | .cmp f => { r with distinctNodes := nmSet r.distinctNodes id f }

/-- The `signalInstance(distinct, id)` for a caller-chosen id: record only the
distinct comparator. -/
def signalInstanceAt (r : Realm) (distinct : Distinct) (id : Nat) : Realm :=
  match distinct with
  | .fls => r
  | .tru => { r with distinctNodes := nmSet r.distinctNodes id defaultComparator }
  | .cmp f => { r with distinctNodes := nmSet r.distinctNodes id f }

/-- The `cellInstance(value, distinct)` with the default fresh id
(JS `Symbol()`). -/
def cellInstance (r : Realm) (value : JVal) (distinct : Distinct) : Realm × Nat :=
  let id := r.fresh
  (cellInstanceAt { r with fresh := id + 1 } value distinct id, id)

/-- The `signalInstance(distinct)` with the default fresh id. -/
def signalInstance (r : Realm) (distinct : Distinct) : Realm × Nat :=
  let id := r.fresh
  (signalInstanceAt { r with fresh := id + 1 } distinct id, id)

/-- The `CellDefinition`: id, initial value, distinct policy, and the `init`
setup callback (arbitrary engine calls, modelled as a realm transformer). -/
structure CellDef where
  id : Nat
  initial : JVal
  distinct : Distinct
  init : Realm → Realm

/-- The `SignalDefinition`. -/
structure SignalDef where
  id : Nat
  distinct : Distinct
  init : Realm → Realm

/-- The `RN<T>`: a bare live node or a cell/signal definition. -/
inductive RNode where
  | plain (id : Nat)
  | cell (d : CellDef)
  | signal (d : SignalDef)

/-- The id carried by a node reference (accessible without registering). -/
def RNode.id : RNode → Nat
  | .plain id => id
  | .cell d => d.id
  | .signal d => d.id

/-- The `registerCell(definition)`: on first registration mark it registered,
run its setup callback, then materialize state; otherwise a no-op returning
the same identifier. -/
def registerCell (r : Realm) (d : CellDef) : Realm × Nat :=
  if d.id ∈ r.definitionRegistry then (r, d.id)
  else
    let r := { r with definitionRegistry := r.definitionRegistry ++ [d.id] }
    let r := d.init r
    (cellInstanceAt r d.initial d.distinct d.id, d.id)

/-- The `registerSignal(definition)`. -/
def registerSignal (r : Realm) (d : SignalDef) : Realm × Nat :=
  if d.id ∈ r.definitionRegistry then (r, d.id)
  else
    let r := { r with definitionRegistry := r.definitionRegistry ++ [d.id] }
    let r := d.init r
    (signalInstanceAt r d.distinct d.id, d.id)

/-- The `register(node)`: dispatch on the node kind; bare identifiers pass
through unchanged. -/
def register (r : Realm) : RNode → Realm × Nat
  | .plain id => (r, id)
  | .cell d => registerCell r d
  | .signal d => registerSignal r d

/-- The `nodesToKeySet(nodes)`: the JS `Set` of the nodes' identifiers. -/
def nodesToKeySet (nodes : List RNode) : List Nat :=
  jsSet (nodes.map RNode.id)

/-- The argument record of `connect`. -/
structure ConnectSpec where
  sources : List RNode
  pulls : List RNode
  sink : RNode
  transform : List JVal → TOut

/-- The `for (const node of [...sources, ...pulls])` loop of `connect`:
register each node and index the projection (by its table position `pid`)
under the node's id in the dependency graph. -/
def connectIndexLoop (pid : Nat) : Realm → List RNode → Realm
  | r, [] => r
  | r, n :: rest =>
    let rn := register r n
    connectIndexLoop pid { rn.1 with graph := smAdd rn.1.graph n.id pid } rest

/-- The `connect({sources, pulls, sink, map})`: register the sink, build one
projection whose sources/pulls are key sets, register every source and pull
and index the projection under each of their ids, then invalidate the whole
plan cache. -/
def connect (r : Realm) (spec : ConnectSpec) : Realm :=
  let rs := register r spec.sink
  let p : Projection :=
    { sources := nodesToKeySet spec.sources
      pulls := nodesToKeySet spec.pulls
      sink := rs.2
      transform := spec.transform }
  let pid := rs.1.projs.length
  let r := { rs.1 with projs := rs.1.projs ++ [p] }
  let r := connectIndexLoop pid r (spec.sources ++ spec.pulls)
  { r with executionMaps := [] }

/-- The `pub(node1, v1, node2, v2, ...)`: register each node, build the values
record positionally, and run `pubIn`. -/
def pub (r : Realm) (pairs : List (RNode × JVal)) : Realm × Bool :=
  let folded :=
    pairs.foldl
      (fun acc p =>
        let rn := register acc.1 p.1
        (rn.1, nmSet acc.2 rn.2 p.2))
      (r, ([] : NMap JVal))
  pubIn folded.1 folded.2

/-- The `sub(node, subscription)`: register the node and append the callback to
its subscription set (the unsubscribe handle is not modelled). -/
def sub (r : Realm) (n : RNode) (s : JVal → Bool) : Realm :=
  let rn := register r n
  { rn.1 with
    subscriptions :=
      nmSet rn.1.subscriptions rn.2 (nmGetD rn.1.subscriptions rn.2 [] ++ [s]) }

/-- The `singletonSub(node, subscription)` with a callback present: replaces any
prior exclusive subscriber. -/
def singletonSub (r : Realm) (n : RNode) (s : JVal → Bool) : Realm :=
  let rn := register r n
  { rn.1 with singletonSubscriptions := nmSet rn.1.singletonSubscriptions rn.2 s }

/-- The `getValue(node)`: register, then read the committed State Store
directly. -/
def getValue (r : Realm) (n : RNode) : Realm × JVal :=
  let rn := register r n
  (rn.1, nmGetD rn.1.state rn.2 .undef)

/-- The `withLatestFrom` operator from operators.ts: a fresh signal sink fed
by one projection whose single active source is the piped node and whose
pulls are the passed nodes; the transform emits the argument array. -/
def withLatestFrom (nodes : List RNode) (source : RNode) (r : Realm) :
    Realm × Nat :=
  let rs := signalInstance r .fls
  let r :=
    connect rs.1
      { sources := [source]
        pulls := nodes
        sink := .plain rs.2
        transform := fun args => ⟨[JVal.ofList args], false⟩ }
  (r, rs.2)

/-- The subscriber-invocation log restricted to one node. -/
def logAt (log : List (Nat × JVal)) (id : Nat) : List (Nat × JVal) :=
  log.filter fun e => decide (e.1 = id)

/-- One plan-cache entry agrees with what `calculateExecutionMap` computes
for its key on the current graph. -/
def cacheEntryOk (r : Realm) (e : (Nat ⊕ List Nat) × ExecutionMap) : Bool :=
  match e.1 with
  | Sum.inl k => decide (e.2 = calculateExecutionMap r [k])
  | Sum.inr ks => decide (e.2 = calculateExecutionMap r ks)

/-- Every cached plan agrees with a from-scratch computation for its key.
This holds for every realm reachable through the engine API (`connect`
clears the cache, `pubIn` only caches freshly computed plans). -/
def cacheConsistent (r : Realm) : Prop :=
  ∀ e ∈ r.executionMaps, cacheEntryOk r e = true

/-- Diamond-shaped graph: nodes a=0, b=1, c=2, d=3, projections a→b (through
`f`), a→c (through `g`), and one fan-in projection {b,c}→d (through `hF`),
with one well-behaved subscriber on every node.  `f`, `g`, `hF` are
arbitrary, so this is the whole family of combine-style diamonds over these
four nodes. -/
def diamondRealm (f g : JVal → JVal) (hF : List JVal → JVal) : Realm :=
  let r := realm []
  let r := (signalInstance r .fls).1
  let r := (signalInstance r .fls).1
  let r := (signalInstance r .fls).1
  let r := (signalInstance r .fls).1
  let r := connect r ⟨[.plain 0], [], .plain 1, fun args => ⟨[f (args.getD 0 .undef)], false⟩⟩
  let r := connect r ⟨[.plain 0], [], .plain 2, fun args => ⟨[g (args.getD 0 .undef)], false⟩⟩
  let r := connect r ⟨[.plain 1, .plain 2], [], .plain 3, fun args => ⟨[hF args], false⟩⟩
  let r := sub r (.plain 0) fun _ => false
  let r := sub r (.plain 1) fun _ => false
  let r := sub r (.plain 2) fun _ => false
  sub r (.plain 3) fun _ => false

/-- Diamond variant in which d is fed by two separate single-source
projections, one from b (through `h1`) and one from c (through `h2`). -/
def diamond2Realm (f g h1 h2 : JVal → JVal) : Realm :=
  let r := realm []
  let r := (signalInstance r .fls).1
  let r := (signalInstance r .fls).1
  let r := (signalInstance r .fls).1
  let r := (signalInstance r .fls).1
  let r := connect r ⟨[.plain 0], [], .plain 1, fun args => ⟨[f (args.getD 0 .undef)], false⟩⟩
  let r := connect r ⟨[.plain 0], [], .plain 2, fun args => ⟨[g (args.getD 0 .undef)], false⟩⟩
  let r := connect r ⟨[.plain 1], [], .plain 3, fun args => ⟨[h1 (args.getD 0 .undef)], false⟩⟩
  let r := connect r ⟨[.plain 2], [], .plain 3, fun args => ⟨[h2 (args.getD 0 .undef)], false⟩⟩
  let r := sub r (.plain 0) fun _ => false
  let r := sub r (.plain 1) fun _ => false
  let r := sub r (.plain 2) fun _ => false
  sub r (.plain 3) fun _ => false

/-- A transform that always emits `0`; the planner never looks at transform
output, so this is enough for planner scenarios. -/
def tfZero : List JVal → TOut := fun _ => ⟨[.num 0], false⟩

/-- Planner scenario for the ordering guarantee: nodes A=0, T=1, C=2, Y=3,
P=4, X=5 with projections A→T, T→C (pulling X), A→Y (pulling C), A→P
(pulling Y) and P→X, connected in that order. -/
def plannerPullRealm : Realm :=
  let r := realm []
  let r := (signalInstance r .fls).1
  let r := (signalInstance r .fls).1
  let r := (signalInstance r .fls).1
  let r := (signalInstance r .fls).1
  let r := (signalInstance r .fls).1
  let r := (signalInstance r .fls).1
  let r := connect r ⟨[.plain 0], [], .plain 1, tfZero⟩
  let r := connect r ⟨[.plain 1], [.plain 5], .plain 2, tfZero⟩
  let r := connect r ⟨[.plain 0], [.plain 2], .plain 3, tfZero⟩
  let r := connect r ⟨[.plain 0], [.plain 3], .plain 4, tfZero⟩
  connect r ⟨[.plain 4], [], .plain 5, tfZero⟩

/-- Planner scenario for the active-source ordering guarantee: nodes A=0,
T=1, Y=2, P=3, X=4 with projections A→Y, A→T, P→X (pulling T) and A→P
(pulling Y), connected in that order. -/
def plannerSourceRealm : Realm :=
  let r := realm []
  let r := (signalInstance r .fls).1
  let r := (signalInstance r .fls).1
  let r := (signalInstance r .fls).1
  let r := (signalInstance r .fls).1
  let r := (signalInstance r .fls).1
  let r := connect r ⟨[.plain 0], [], .plain 2, tfZero⟩
  let r := connect r ⟨[.plain 0], [], .plain 1, tfZero⟩
  let r := connect r ⟨[.plain 3], [.plain 1], .plain 4, tfZero⟩
  connect r ⟨[.plain 0], [.plain 2], .plain 3, tfZero⟩

/-- Distinct sink fed by two projections from the same source, both emitting
`5` into a distinct cell whose committed value starts at `0`; one subscriber
on the sink. -/
def twoProjSameValueRealm : Realm :=
  let r := realm []
  let r := (signalInstance r .fls).1
  let r := (cellInstance r (.num 0) .tru).1
  let r := connect r ⟨[.plain 0], [], .plain 1, fun _ => ⟨[.num 5], false⟩⟩
  let r := connect r ⟨[.plain 0], [], .plain 1, fun _ => ⟨[.num 5], false⟩⟩
  sub r (.plain 1) fun _ => false

/-- Same shape, but the first projection emits the sink's previous value `0`
(suppressed) and the second emits `7`. -/
def twoProjLaterResolvesRealm : Realm :=
  let r := realm []
  let r := (signalInstance r .fls).1
  let r := (cellInstance r (.num 0) .tru).1
  let r := connect r ⟨[.plain 0], [], .plain 1, fun _ => ⟨[.num 0], false⟩⟩
  let r := connect r ⟨[.plain 0], [], .plain 1, fun _ => ⟨[.num 7], false⟩⟩
  sub r (.plain 1) fun _ => false

/-- Two unconnected subscribed signals 0 and 1: the minimal multi-key
publish target. -/
def twoNodeRealm : Realm :=
  let r := realm []
  let r := (signalInstance r .fls).1
  let r := (signalInstance r .fls).1
  let r := sub r (.plain 0) fun _ => false
  sub r (.plain 1) fun _ => false

/-- The `twoNodeRealm` after one `pubIn` under the key enumeration `[0, 1]`,
which caches the plan for that key order. -/
def twoNodeRealmCached : Realm :=
  (pubIn twoNodeRealm [(0, .num 1), (1, .num 2)]).1

/-- The withLatestFrom scenario: a=0 (pulled), b=1 (active source),
c=2 = withLatestFrom(a)(b), with a subscriber on c. -/
def pullOnlyRealm : Realm :=
  let r := realm []
  let r := (signalInstance r .fls).1
  let r := (signalInstance r .fls).1
  let rc := withLatestFrom [.plain 0] (.plain 1) r
  sub rc.1 (.plain rc.2) fun _ => false

/-- Duplicate-argument scenario: one projection with sources `[0, 1, 0]` and
pulls `[2, 2]` into sink 3 whose transform emits the number of positional
arguments it receives; a subscriber on the sink observes it. -/
def dupArgsRealm : Realm :=
  let r := realm []
  let r := (signalInstance r .fls).1
  let r := (signalInstance r .fls).1
  let r := (signalInstance r .fls).1
  let r := (signalInstance r .fls).1
  let r := connect r
    ⟨[.plain 0, .plain 1, .plain 0], [.plain 2, .plain 2], .plain 3,
      fun args => ⟨[.num args.length], false⟩⟩
  sub r (.plain 3) fun _ => false

/-- Chain a=0 (cell, initial `w`) → b=1 (signal) → c=2 (cell, initial `z`)
in which b's transform throws; subscribers on every node. -/
def throwingTransformRealm (f : JVal → JVal) (w z : JVal) : Realm :=
  let r := realm []
  let r := (cellInstance r w .fls).1
  let r := (signalInstance r .fls).1
  let r := (cellInstance r z .fls).1
  let r := connect r ⟨[.plain 0], [], .plain 1, fun _ => ⟨[], true⟩⟩
  let r := connect r ⟨[.plain 1], [], .plain 2, fun args => ⟨[f (args.getD 0 .undef)], false⟩⟩
  let r := sub r (.plain 0) fun _ => false
  let r := sub r (.plain 1) fun _ => false
  sub r (.plain 2) fun _ => false

/-- Same chain with a well-behaved transform `g` into b but a throwing
subscriber on b. -/
def throwingSubscriberRealm (g : JVal → JVal) (w z : JVal) : Realm :=
  let r := realm []
  let r := (cellInstance r w .fls).1
  let r := (signalInstance r .fls).1
  let r := (cellInstance r z .fls).1
  let r := connect r ⟨[.plain 0], [], .plain 1, fun args => ⟨[g (args.getD 0 .undef)], false⟩⟩
  let r := connect r ⟨[.plain 1], [], .plain 2, fun args => ⟨[args.getD 0 .undef], false⟩⟩
  let r := sub r (.plain 0) fun _ => false
  let r := sub r (.plain 1) fun _ => true
  sub r (.plain 2) fun _ => false

/-- A subscribed distinct cell holding `5`: the concrete instance for the
distinctness-suppression claim. -/
def distinctCellRealm : Realm :=
  let r := realm []
  let r := (cellInstance r (.num 5) .tru).1
  sub r (.plain 0) fun _ => false

/-- A cell definition with identifier 0, declared initial `3` and a no-op
setup: the concrete instance for the seeding claim. -/
def seededCellDef : CellDef :=
  ⟨0, .num 3, .fls, fun s => s⟩

/-- A cell definition with a no-op setup for the idempotence witness. -/
def plainCellDef : CellDef :=
  ⟨0, .num 1, .fls, fun s => s⟩

/-- A signal definition with a no-op setup for the idempotence witness. -/
def plainSignalDef : SignalDef :=
  ⟨1, .fls, fun s => s⟩

/-- The node id a visit frame is about. -/
def VFrame.fid : VFrame → Nat
  | .node id _ => id
  | .pend id _ _ => id

/-! ## Helper lemmas about the map/set primitives -/

theorem nmLookup_nmSet_ne {α : Type} (m : NMap α) {k id : Nat} (h : k ≠ id)
    (v : α) : nmLookup (nmSet m k v) id = nmLookup m id := by
  induction m with
  | nil => simp [nmSet, nmLookup, h]
  | cons e rest ih =>
    obtain ⟨k', v'⟩ := e
    by_cases hk : k' = k
    · subst hk
      simp [nmSet, nmLookup, h]
    · simp [nmSet, nmLookup, hk, ih]

theorem mem_insertAt {α : Type} {l : List α} {i : Nat} {x y : α}
    (h : y ∈ insertAt l i x) : y ∈ l ∨ y = x := by
  induction l generalizing i with
  | nil =>
    cases i <;> simp [insertAt] at h <;> simp [h]
  | cons a as ih =>
    cases i with
    | zero =>
      simp [insertAt] at h
      rcases h with h | h
      · exact Or.inr h
      · exact Or.inl (List.mem_cons.mpr h)
    | succ j =>
      simp [insertAt] at h
      rcases h with h | h
      · exact Or.inl (List.mem_cons.mpr (Or.inl h))
      · rcases ih h with h' | h'
        · exact Or.inl (List.mem_cons.mpr (Or.inr h'))
        · exact Or.inr h'

theorem jsSpliceRemove_subset (l : List Nat) (x : Nat) :
    jsSpliceRemove l x ⊆ l := by
  unfold jsSpliceRemove
  split
  · exact List.erase_subset _ _
  · exact List.dropLast_subset l

/-! ## Literal forms of the parametric scenario realms (proved by `rfl`,
they let the propagation proofs below reduce on a flat structure) -/

theorem diamondRealm_eq (f g : JVal → JVal) (hF : List JVal → JVal) :
    diamondRealm f g hF =
      { subscriptions := [(0, [fun _ => false]), (1, [fun _ => false]),
          (2, [fun _ => false]), (3, [fun _ => false])]
        singletonSubscriptions := []
        graph := [(0, [0, 1]), (1, [2]), (2, [2])]
        projs := [⟨[0], [], 1, fun args => ⟨[f (args.getD 0 .undef)], false⟩⟩,
          ⟨[0], [], 2, fun args => ⟨[g (args.getD 0 .undef)], false⟩⟩,
          ⟨[1, 2], [], 3, fun args => ⟨[hF args], false⟩⟩]
        state := []
        distinctNodes := []
        executionMaps := []
        definitionRegistry := []
        fresh := 4
        log := [] } := by
  rfl

theorem throwingTransformRealm_eq (f : JVal → JVal) (w z : JVal) :
    throwingTransformRealm f w z =
      { subscriptions := [(0, [fun _ => false]), (1, [fun _ => false]),
          (2, [fun _ => false])]
        singletonSubscriptions := []
        graph := [(0, [0]), (1, [1])]
        projs := [⟨[0], [], 1, fun _ => ⟨[], true⟩⟩,
          ⟨[1], [], 2, fun args => ⟨[f (args.getD 0 .undef)], false⟩⟩]
        state := [(0, w), (2, z)]
        distinctNodes := []
        executionMaps := []
        definitionRegistry := []
        fresh := 3
        log := [] } := by
  rfl

theorem throwingSubscriberRealm_eq (g : JVal → JVal) (w z : JVal) :
    throwingSubscriberRealm g w z =
      { subscriptions := [(0, [fun _ => false]), (1, [fun _ => true]),
          (2, [fun _ => false])]
        singletonSubscriptions := []
        graph := [(0, [0]), (1, [1])]
        projs := [⟨[0], [], 1, fun args => ⟨[g (args.getD 0 .undef)], false⟩⟩,
          ⟨[1], [], 2, fun args => ⟨[args.getD 0 .undef], false⟩⟩]
        state := [(0, w), (2, z)]
        distinctNodes := []
        executionMaps := []
        definitionRegistry := []
        fresh := 3
        log := [] } := by
  rfl

/-! ## Claim theorems -/

set_option maxHeartbeats 1600000 in
/-- C1: In a diamond-shaped graph — sink d fed from b and c, which are each
fed by a projection from a — one `pub(a, v)` call delivers exactly one
notification to each node's subscribers: the full subscriber-invocation log
of the cycle is `a, c, b, d` with one entry per node, and d's single
notification carries `hF [f v, g v]`, the value computed from both upstream
paths.  The transforms `f`, `g`, `hF` and the published value `v` are
arbitrary, so this covers the whole family of such diamonds (node
identifiers are interchangeable tokens; `0..3` are canonical names).  The second
conjunct is the fan-in variant where d is fed by two separate projections
from b and from c: the diamond still funnels into a single notification on
d (carrying the result of the projection that ran last). -/
theorem c1_diamond_single_delivery (f g : JVal → JVal) (hF : List JVal → JVal)
    (v : JVal) :
    ((pub (diamondRealm f g hF) [(.plain 0, v)]).1.log =
        [(0, v), (2, g v), (1, f v), (3, hF [f v, g v])] ∧
      (pub (diamondRealm f g hF) [(.plain 0, v)]).2 = false) ∧
    (pub (diamond2Realm (fun x => x) (fun x => x) (fun _ => .num 1) (fun _ => .num 2))
          [(.plain 0, .num 7)]).1.log =
      [(0, .num 7), (2, .num 7), (1, .num 7), (3, .num 2)] := by
  refine ⟨⟨?_, ?_⟩, by decide⟩
  · rw [diamondRealm_eq]; rfl
  · rw [diamondRealm_eq]; rfl

/-- C2: the planner's ordering guarantee fails on the code.  In
`plannerPullRealm`, one `pub` into node 0 yields the order
`[0, 1, 2, 3, 4, 5]`, in which node 2 — the sink of projection 1, which
pull-depends on node 5 — appears strictly *before* node 5 even though node 5
is part of the same plan.  In `plannerSourceRealm` the order is
`[0, 1, 4, 3, 2]`, in which node 4 appears strictly before node 3, its only
active-source predecessor (the sole source of projection 2 that feeds
node 4). -/
theorem c2_planner_order_violation :
    ((calculateExecutionMap plannerPullRealm [0]).participatingNodes =
        [0, 1, 2, 3, 4, 5] ∧
      (getProj plannerPullRealm 1).pulls = [5] ∧
      (getProj plannerPullRealm 1).sink = 2) ∧
    ((calculateExecutionMap plannerSourceRealm [0]).participatingNodes =
        [0, 1, 4, 3, 2] ∧
      (getProj plannerSourceRealm 2).sources = [3] ∧
      (getProj plannerSourceRealm 2).sink = 4) := by
  refine ⟨⟨by decide, rfl, rfl⟩, ⟨by decide, rfl, rfl⟩⟩

/-- C3 counterexample: a suppressed `done` call is not a pure no-op.  In
`twoProjSameValueRealm` the first projection resolves the distinct sink
(committing 5 to the State Store), then the second projection's `done(5)` is
suppressed by the comparator and resets the `resolved` flag, so the sink
notifies *zero* times in the cycle even though a projection resolved it —
the claim's "still commits and notifies once" fails (it commits but does not
notify). -/
theorem c3_suppression_undoes_resolution_cex :
    (pub twoProjSameValueRealm [(.plain 0, .num 1)]).1.log = [] ∧
    nmLookup (pub twoProjSameValueRealm [(.plain 0, .num 1)]).1.state 1 =
      some (.num 5) := by
  decide

/-- C3 amended: a suppressed `done` call does not abort the remaining
projections feeding the same sink — a later projection in the same visit
can still resolve it — but it does reset the `resolved` flag, so the sink
commits and notifies exactly when the *last* `done` call of the visit was
not suppressed.  In `twoProjLaterResolvesRealm` the first projection's
`done(0)` is suppressed, and the second projection still resolves the sink,
which notifies once with 7. -/
theorem c3_suppression_no_skip :
    (pub twoProjLaterResolvesRealm [(.plain 0, .num 1)]).1.log = [(1, .num 7)] ∧
    nmLookup (pub twoProjLaterResolvesRealm [(.plain 0, .num 1)]).1.state 1 =
      some (.num 7) := by
  decide

set_option maxHeartbeats 1600000 in
/-- C7: an exception thrown inside a transform (first conjunct block) or a
subscriber (second block) propagates to the `pub` caller (`errored = true`),
aborts the remainder of the traversal (no notification for any node after
the throwing one), and rolls nothing back: node 0, committed earlier in the
cycle, keeps its newly published value `v`, while node 2, later in the plan,
keeps its old value `z`.  In the subscriber case the throwing subscriber's
own invocation is the last log entry. -/
theorem c7_exception_no_rollback (f g : JVal → JVal) (w z v : JVal) :
    ((pub (throwingTransformRealm f w z) [(.plain 0, v)]).2 = true ∧
      nmLookup (pub (throwingTransformRealm f w z) [(.plain 0, v)]).1.state 0 =
        some v ∧
      nmLookup (pub (throwingTransformRealm f w z) [(.plain 0, v)]).1.state 2 =
        some z ∧
      (pub (throwingTransformRealm f w z) [(.plain 0, v)]).1.log = [(0, v)]) ∧
    ((pub (throwingSubscriberRealm g w z) [(.plain 0, v)]).2 = true ∧
      nmLookup (pub (throwingSubscriberRealm g w z) [(.plain 0, v)]).1.state 0 =
        some v ∧
      nmLookup (pub (throwingSubscriberRealm g w z) [(.plain 0, v)]).1.state 2 =
        some z ∧
      (pub (throwingSubscriberRealm g w z) [(.plain 0, v)]).1.log =
        [(0, v), (1, g v)]) := by
  constructor
  · rw [throwingTransformRealm_eq]
    exact ⟨rfl, rfl, rfl, rfl⟩
  · rw [throwingSubscriberRealm_eq]
    exact ⟨rfl, rfl, rfl, rfl⟩

/-! ## Registration helper lemmas -/

theorem cellInstanceAt_registry (s : Realm) (v : JVal) (dt : Distinct) (id : Nat) :
    (cellInstanceAt s v dt id).definitionRegistry = s.definitionRegistry := by
  cases dt <;> simp only [cellInstanceAt] <;> split <;> rfl

theorem signalInstanceAt_registry (s : Realm) (dt : Distinct) (id : Nat) :
    (signalInstanceAt s dt id).definitionRegistry = s.definitionRegistry := by
  cases dt <;> rfl

theorem cellInstanceAt_state_has (s : Realm) (v : JVal) (dt : Distinct) (id : Nat)
    (h : nmHas s.state id = true) : (cellInstanceAt s v dt id).state = s.state := by
  cases dt <;> simp only [cellInstanceAt, h] <;> rfl

/-- C8: `register` is idempotent per engine instance.  The first
`registerCell`/`registerSignal` call returns the definition's identifier;
calling it again on the resulting realm is an exact no-op (same realm, same
identifier — in particular the setup callback does not run again).  The
hypotheses say that the definitions' setup callbacks never un-register an
id; every engine API operation only ever adds to the definition registry,
so every real setup callback satisfies them. -/
theorem c8_register_idempotent (d : CellDef) (sd : SignalDef) (r r' : Realm)
    (hm : ∀ s : Realm, d.id ∈ s.definitionRegistry →
      d.id ∈ (d.init s).definitionRegistry)
    (hm' : ∀ s : Realm, sd.id ∈ s.definitionRegistry →
      sd.id ∈ (sd.init s).definitionRegistry) :
    (registerCell r d).2 = d.id ∧
    registerCell (registerCell r d).1 d = ((registerCell r d).1, d.id) ∧
    (registerSignal r' sd).2 = sd.id ∧
    registerSignal (registerSignal r' sd).1 sd = ((registerSignal r' sd).1, sd.id) := by
  have hcell : d.id ∈ (registerCell r d).1.definitionRegistry := by
    by_cases h : d.id ∈ r.definitionRegistry
    · simp [registerCell, h]
    · simp only [registerCell, h, if_neg, ite_false, cellInstanceAt_registry]
      exact hm _ (by simp)
  have hsig : sd.id ∈ (registerSignal r' sd).1.definitionRegistry := by
    by_cases h : sd.id ∈ r'.definitionRegistry
    · simp [registerSignal, h]
    · simp only [registerSignal, h, if_neg, ite_false, signalInstanceAt_registry]
      exact hm' _ (by simp)
  refine ⟨?_, ?_, ?_, ?_⟩
  · simp only [registerCell]; split <;> rfl
  · revert hcell
    generalize (registerCell r d).1 = X
    intro hcell
    simp [registerCell, hcell]
  · simp only [registerSignal]; split <;> rfl
  · revert hsig
    generalize (registerSignal r' sd).1 = X
    intro hsig
    simp [registerSignal, hsig]

/-- C8 witness: concrete cell and signal definitions with no-op setups. -/
theorem c8_register_idempotent_witness :
    (registerCell (realm []) plainCellDef).2 = plainCellDef.id ∧
    registerCell (registerCell (realm []) plainCellDef).1 plainCellDef =
      ((registerCell (realm []) plainCellDef).1, plainCellDef.id) ∧
    (registerSignal (realm []) plainSignalDef).2 = plainSignalDef.id ∧
    registerSignal (registerSignal (realm []) plainSignalDef).1 plainSignalDef =
      ((registerSignal (realm []) plainSignalDef).1, plainSignalDef.id) :=
  c8_register_idempotent plainCellDef plainSignalDef (realm []) (realm [])
    (fun _ h => h) (fun _ h => h)

/-- C9: the initial-state map given at construction seeds the State Store
as-is, with an empty subscriber-invocation log (it is not a publish), and a
later registration of a cell whose identifier is already occupied does not
overwrite the occupied slot with the cell's declared initial: whatever value
`v` sits at `d.id` once the setup callback has run (in particular the seeded
value, for a setup that does not touch it) is still there after
`registerCell`. -/
theorem c9_seed_preserved (iv : NMap JVal) (d : CellDef) (v : JVal)
    (h : nmLookup (d.init { realm iv with definitionRegistry := [d.id] }).state
        d.id = some v) :
    (realm iv).log = [] ∧ (realm iv).state = iv ∧
    nmLookup (registerCell (realm iv) d).1.state d.id = some v := by
  refine ⟨rfl, rfl, ?_⟩
  simp only [realm, List.nil_append] at h
  simp only [registerCell, realm, List.nil_append]
  rw [if_neg (by simp)]
  rw [cellInstanceAt_state_has _ _ _ _ (by simp [nmHas, h])]
  exact h

/-- C9 witness: the store is seeded with 7 under id 0; registering the cell
definition (declared initial 3, no-op setup) keeps the seeded 7. -/
theorem c9_seed_preserved_witness :
    nmLookup (seededCellDef.init
        { realm [(0, JVal.num 7)] with definitionRegistry := [seededCellDef.id] }).state
      seededCellDef.id = some (JVal.num 7) ∧
    ((realm [(0, JVal.num 7)]).log = [] ∧
      (realm [(0, JVal.num 7)]).state = [(0, JVal.num 7)] ∧
      nmLookup (registerCell (realm [(0, JVal.num 7)]) seededCellDef).1.state
        seededCellDef.id = some (JVal.num 7)) :=
  ⟨rfl, c9_seed_preserved [(0, JVal.num 7)] seededCellDef (JVal.num 7) rfl⟩

/-! ## JS `Set` deduplication lemmas -/

theorem jsSet_go_mem (l : List Nat) (acc : List Nat) (x : Nat) :
    x ∈ l.foldl (fun acc y => if y ∈ acc then acc else acc ++ [y]) acc ↔
      x ∈ acc ∨ x ∈ l := by
  induction l generalizing acc with
  | nil => simp
  | cons a as ih =>
    simp only [List.foldl]
    by_cases h : a ∈ acc
    · rw [if_pos h, ih]
      constructor
      · rintro (hx | hx)
        · exact Or.inl hx
        · exact Or.inr (List.mem_cons.mpr (Or.inr hx))
      · rintro (hx | hx)
        · exact Or.inl hx
        · rcases List.mem_cons.mp hx with rfl | hx
          · exact Or.inl h
          · exact Or.inr hx
    · rw [if_neg h, ih]
      simp only [List.mem_append, List.mem_singleton, List.mem_cons]
      tauto

theorem jsSet_go_nodup (l : List Nat) (acc : List Nat) (h : acc.Nodup) :
    (l.foldl (fun acc y => if y ∈ acc then acc else acc ++ [y]) acc).Nodup := by
  induction l generalizing acc with
  | nil => exact h
  | cons a as ih =>
    simp only [List.foldl]
    by_cases ha : a ∈ acc
    · rw [if_pos ha]; exact ih _ h
    · rw [if_neg ha]
      refine ih _ (List.nodup_append.mpr ⟨h, List.nodup_singleton a, ?_⟩)
      intro x hx hx'
      rw [List.mem_singleton] at hx'
      exact ha (hx' ▸ hx)

theorem jsSet_nodup (l : List Nat) : (jsSet l).Nodup :=
  jsSet_go_nodup l [] List.nodup_nil

theorem jsSet_mem (l : List Nat) (x : Nat) : x ∈ jsSet l ↔ x ∈ l := by
  rw [jsSet, jsSet_go_mem]
  simp

theorem nodesToKeySet_plain (ks : List Nat) :
    nodesToKeySet (ks.map RNode.plain) = jsSet ks := by
  simp only [nodesToKeySet, List.map_map]
  congr 1
  simp [Function.comp_def, RNode.id]

theorem connectIndexLoop_plain_projs (pid : Nat) (ks : List Nat) (r0 : Realm) :
    (connectIndexLoop pid r0 (ks.map RNode.plain)).projs = r0.projs := by
  induction ks generalizing r0 with
  | nil => rfl
  | cons a as ih =>
    simp only [List.map, connectIndexLoop]
    rw [ih]
    rfl

/-- C10: duplicate entries in a `connect` call's `sources` (or `pulls`)
array collapse.  First block: `nodesToKeySet` (the JS `Set` of the ids)
contains no duplicates and holds exactly the ids of the array, in
first-occurrence order, and `connect` stores the projection with exactly
those key sets, so `pubIn` later builds the transform's argument list as
one transient value per distinct source id followed by one per distinct
pull id.  Second block, observed end to end: in `dupArgsRealm` (sources
`[0, 1, 0]`, pulls `[2, 2]`) the transform receives 3 positional arguments
— 2 distinct sources plus 1 distinct pull — not 5, and the sink reports
exactly that arity. -/
theorem c10_connect_dedup :
    (∀ l : List Nat, (jsSet l).Nodup ∧ ∀ x, x ∈ jsSet l ↔ x ∈ l) ∧
    (∀ (srcs pulls : List Nat) (s : Nat) (tf : List JVal → TOut) (r : Realm),
      (connect r ⟨srcs.map .plain, pulls.map .plain, .plain s, tf⟩).projs =
        r.projs ++ [⟨jsSet srcs, jsSet pulls, s, tf⟩]) ∧
    (pub dupArgsRealm [(.plain 0, .num 9)]).1.log = [(3, .num 3)] := by
  refine ⟨fun l => ⟨jsSet_nodup l, jsSet_mem l⟩, ?_, by decide⟩
  intro srcs pulls s tf r
  simp only [connect, register]
  rw [← List.map_append, connectIndexLoop_plain_projs]
  simp [nodesToKeySet_plain]

/-! ## Frame lemmas for the distinctness claim: processing any other node
leaves a node's transient value, committed value and log entries alone -/

theorem applyDone_other (dn : NMap (JVal → JVal → Bool)) (k : Nat) (st : DoneSt)
    (v : JVal) (id : Nat) (h : k ≠ id) :
    nmLookup (applyDone dn k st v).transient id = nmLookup st.transient id ∧
    nmLookup (applyDone dn k st v).state id = nmLookup st.state id := by
  simp only [applyDone]
  split
  · exact ⟨rfl, rfl⟩
  · refine ⟨nmLookup_nmSet_ne _ h _, ?_⟩
    dsimp only
    split
    · exact nmLookup_nmSet_ne _ h _
    · rfl

theorem foldDones_other (dn : NMap (JVal → JVal → Bool)) (k id : Nat)
    (h : k ≠ id) (ds : List JVal) :
    ∀ st : DoneSt,
      nmLookup (ds.foldl (applyDone dn k) st).transient id =
        nmLookup st.transient id ∧
      nmLookup (ds.foldl (applyDone dn k) st).state id =
        nmLookup st.state id := by
  induction ds with
  | nil => exact fun st => ⟨rfl, rfl⟩
  | cons d ds ih =>
    intro st
    have h1 := applyDone_other dn k st d id h
    have h2 := ih (applyDone dn k st d)
    exact ⟨h2.1.trans h1.1, h2.2.trans h1.2⟩

theorem runProjs_other (r : Realm) (k id : Nat) (h : k ≠ id) (pids : List Nat) :
    ∀ st : DoneSt,
      nmLookup (runProjs r k pids st).1.transient id = nmLookup st.transient id ∧
      nmLookup (runProjs r k pids st).1.state id = nmLookup st.state id := by
  induction pids with
  | nil => exact fun st => ⟨rfl, rfl⟩
  | cons pid rest ih =>
    intro st
    simp only [runProjs]
    split
    · exact foldDones_other r.distinctNodes k id h _ st
    · have h1 := foldDones_other r.distinctNodes k id h
        ((getProj r pid).transform
          (((getProj r pid).sources ++ (getProj r pid).pulls).map fun x =>
            nmGetD st.transient x .undef)).dones st
      exact ⟨(ih _).1.trans h1.1, (ih _).2.trans h1.2⟩

theorem processNode_other (r : Realm) (values : NMap JVal)
    (pm : NMap (List Nat)) (k id : Nat) (h : k ≠ id) (t s : NMap JVal) :
    nmLookup (processNode r values pm k t s).1.transient id = nmLookup t id ∧
    nmLookup (processNode r values pm k t s).1.state id = nmLookup s id := by
  simp only [processNode]
  split
  · exact applyDone_other _ _ _ _ _ h
  · exact runProjs_other r k id h _ _

theorem logAt_append_other {k id : Nat} (h : k ≠ id) (log : List (Nat × JVal))
    (val : JVal) : logAt (log ++ [(k, val)]) id = logAt log id := by
  simp [logAt, List.filter_append, h]

theorem notifySubs_logAt_other (k : Nat) (val : JVal) (id : Nat) (h : k ≠ id) :
    ∀ (subs : List (JVal → Bool)) (log : List (Nat × JVal)),
      logAt (notifySubs k val subs log).1 id = logAt log id := by
  intro subs
  induction subs with
  | nil => exact fun log => rfl
  | cons s rest ih =>
    intro log
    simp only [notifySubs]
    split
    · exact logAt_append_other h log val
    · exact (ih _).trans (logAt_append_other h log val)

/-- Publishing the value a default-distinct node already transiently holds
is suppressed: `done` resets `resolved` and changes nothing. -/
theorem processNode_self_suppressed (r : Realm) (values : NMap JVal)
    (pm : NMap (List Nat)) (id : Nat) (v : JVal)
    (h1 : nmLookup r.distinctNodes id = some defaultComparator)
    (h3 : nmLookup values id = some v)
    (t s : NMap JVal) (ht : nmLookup t id = some v) :
    processNode r values pm id t s = (⟨false, t, s⟩, false) := by
  simp only [processNode, nmHas, h3, Option.isSome, if_true]
  simp only [applyDone, nmGetD, h1, h3, ht, Option.getD]
  simp [defaultComparator]

/-- The walk of `pubIn` never disturbs a default-distinct node that is
being published its own current transient value: its transient entry, its
committed entry and its slice of the notification log are all unchanged, no
matter what the rest of the plan does. -/
theorem pubLoop_distinct_frame (r : Realm) (values : NMap JVal)
    (pm : NMap (List Nat)) (id : Nat) (v : JVal)
    (h1 : nmLookup r.distinctNodes id = some defaultComparator)
    (h3 : nmLookup values id = some v) :
    ∀ (fuel : Nat) (st : LoopSt),
      nmLookup st.transient id = some v → nmLookup st.state id = some v →
      nmLookup (pubLoop r values pm fuel st).transient id = some v ∧
      nmLookup (pubLoop r values pm fuel st).state id = some v ∧
      logAt (pubLoop r values pm fuel st).log id = logAt st.log id := by
  intro fuel
  induction fuel with
  | zero => exact fun st ht hs => ⟨ht, hs, rfl⟩
  | succ fuel ih =>
    intro st ht hs
    cases hkeys : st.keys with
    | nil =>
      simp only [pubLoop, hkeys]
      exact ⟨ht, hs, by trivial⟩
    | cons k rest =>
      simp only [pubLoop, hkeys]
      by_cases hk : k = id
      · subst hk
        rw [processNode_self_suppressed r values pm k v h1 h3 st.transient st.state ht]
        simp only [Bool.false_eq_true, if_false]
        exact ih _ (by exact ht) (by exact hs)
      · have hp := processNode_other r values pm k id hk st.transient st.state
        cases hthrew : (processNode r values pm k st.transient st.state).2 with
        | true =>
          simp only [hthrew, if_true]
          exact ⟨hp.1.trans ht, hp.2.trans hs, by trivial⟩
        | false =>
          simp only [hthrew, Bool.false_eq_true, if_false]
          cases hres : (processNode r values pm k st.transient st.state).1.resolved with
          | false =>
            simp only [hres, Bool.false_eq_true, if_false]
            exact ih _ (by exact hp.1.trans ht) (by exact hp.2.trans hs)
          | true =>
            simp only [hres, if_true]
            cases hn2 : (notifySubs k
                (nmGetD (processNode r values pm k st.transient st.state).1.transient
                  k .undef)
                (nmGetD r.subscriptions k []) st.log).2 with
            | true =>
              simp only [hn2, if_true]
              exact ⟨hp.1.trans ht, hp.2.trans hs,
                notifySubs_logAt_other k _ id hk _ _⟩
            | false =>
              simp only [hn2, Bool.false_eq_true, if_false]
              cases hsing : nmLookup r.singletonSubscriptions k with
              | none =>
                simp only [hsing]
                refine ⟨(ih _ ?_ ?_).1, (ih _ ?_ ?_).2.1,
                  ((ih _ ?_ ?_).2.2).trans (notifySubs_logAt_other k _ id hk _ _)⟩
                all_goals first
                  | exact hp.1.trans ht
                  | exact hp.2.trans hs
              | some sfn =>
                simp only [hsing]
                cases hsv : sfn (nmGetD
                    (processNode r values pm k st.transient st.state).1.transient
                    k .undef) with
                | true =>
                  simp only [hsv, if_true]
                  exact ⟨hp.1.trans ht, hp.2.trans hs,
                    (logAt_append_other hk _ _).trans
                      (notifySubs_logAt_other k _ id hk _ _)⟩
                | false =>
                  simp only [hsv, Bool.false_eq_true, if_false]
                  refine ⟨(ih _ ?_ ?_).1, (ih _ ?_ ?_).2.1,
                    ((ih _ ?_ ?_).2.2).trans ((logAt_append_other hk _ _).trans
                      (notifySubs_logAt_other k _ id hk _ _))⟩
                  all_goals first
                    | exact hp.1.trans ht
                    | exact hp.2.trans hs

/-- C5: publishing into a Cell registered with `distinct=true` (default
comparator) the exact value it currently holds notifies none of its
subscribers (its slice of the invocation log is unchanged) and leaves its
committed State Store entry exactly as before.  `values` is any publish
whose entry for the cell is its current value, so the single
`pub(cell, current)` call of the claim is the special case
`values = [(id, v)]`. -/
theorem c5_distinct_same_value_frame (r : Realm) (id : Nat) (v : JVal)
    (values : NMap JVal)
    (h1 : nmLookup r.distinctNodes id = some defaultComparator)
    (h2 : nmLookup r.state id = some v)
    (h3 : nmLookup values id = some v) :
    nmLookup (pubIn r values).1.state id = some v ∧
    logAt (pubIn r values).1.log id = logAt r.log id := by
  simp only [pubIn, pubInWith]
  have h := pubLoop_distinct_frame r values
    (getExecutionMap r (values.map Prod.fst)).1.projections id v h1 h3
    (getExecutionMap r (values.map Prod.fst)).1.participatingNodes.length
    ⟨(getExecutionMap r (values.map Prod.fst)).1.participatingNodes,
      (getExecutionMap r (values.map Prod.fst)).1.refCount, r.state, r.state,
      r.log, false⟩ h2 h2
  exact ⟨h.2.1, h.2.2⟩

/-- C5 witness: a subscribed default-distinct cell holding 5, published 5. -/
theorem c5_distinct_same_value_frame_witness :
    nmLookup distinctCellRealm.distinctNodes 0 = some defaultComparator ∧
    nmLookup distinctCellRealm.state 0 = some (JVal.num 5) ∧
    nmLookup [((0 : Nat), JVal.num 5)] 0 = some (JVal.num 5) ∧
    (nmLookup (pubIn distinctCellRealm [(0, JVal.num 5)]).1.state 0 =
        some (JVal.num 5) ∧
      logAt (pubIn distinctCellRealm [(0, JVal.num 5)]).1.log 0 =
        logAt distinctCellRealm.log 0) :=
  ⟨rfl, rfl, rfl,
    c5_distinct_same_value_frame distinctCellRealm 0 (JVal.num 5)
      [(0, JVal.num 5)] rfl rfl rfl⟩

/-! ## Active-source closure lemmas: one cycle can only notify nodes that
are touched or reachable from the touched set through active-source edges -/

theorem getD_mem_or {α : Type} (l : List α) (n : Nat) (d : α) :
    l.getD n d ∈ l ∨ l.getD n d = d := by
  induction l generalizing n with
  | nil => exact Or.inr rfl
  | cons a as ih =>
    cases n with
    | zero => exact Or.inl (List.mem_cons_self a as)
    | succ m =>
      rcases ih m with h | h
      · exact Or.inl (List.mem_cons.mpr (Or.inr h))
      · exact Or.inr h

theorem getProj_sink_mem (r : Realm) (S : List Nat)
    (hClosed : ∀ p ∈ r.projs, (∃ x ∈ p.sources, x ∈ S) → p.sink ∈ S)
    (pid id : Nat) (hid : id ∈ (getProj r pid).sources) (hS : id ∈ S) :
    (getProj r pid).sink ∈ S := by
  rcases getD_mem_or r.projs pid ⟨[], [], 0, fun _ => ⟨[], false⟩⟩ with h | h
  · exact hClosed _ h ⟨id, hid, hS⟩
  · rw [getProj] at hid
    rw [h] at hid
    simp at hid

theorem visitRun_subset (r : Realm) (S : List Nat)
    (hClosed : ∀ p ∈ r.projs, (∃ x ∈ p.sources, x ∈ S) → p.sink ∈ S) :
    ∀ (fuel : Nat) (stack : List VFrame) (s : VisitSt),
      (∀ f ∈ stack, f.fid ∈ S) → (∀ x ∈ s.participatingNodes, x ∈ S) →
      ∀ x ∈ (visitRun r fuel stack s).participatingNodes, x ∈ S := by
  intro fuel
  induction fuel with
  | zero => exact fun stack s _ hs => hs
  | succ fuel ih =>
    intro stack s hstack hs
    cases stack with
    | nil => exact hs
    | cons f stack' =>
      cases f with
      | node id idxArg =>
        have hid : id ∈ S := hstack _ (List.mem_cons_self _ _)
        simp only [visitRun]
        split
        · exact ih stack' _ (fun f hf => hstack f (List.mem_cons.mpr (Or.inr hf))) hs
        · refine ih _ _ ?_ hs
          intro f hf
          rcases List.mem_cons.mp hf with rfl | hf
          · exact hid
          · exact hstack f (List.mem_cons.mpr (Or.inr hf))
      | pend id idx pids =>
        have hid : id ∈ S := hstack _ (List.mem_cons_self _ _)
        cases pids with
        | nil =>
          simp only [visitRun]
          refine ih stack' _ (fun f hf => hstack f (List.mem_cons.mpr (Or.inr hf))) ?_
          intro x hx
          rcases mem_insertAt hx with hx | rfl
          · exact hs x hx
          · exact hid
        | cons pid rest =>
          simp only [visitRun]
          split
          case isTrue hsrc =>
            refine ih _ _ ?_ hs
            intro f hf
            rcases List.mem_cons.mp hf with rfl | hf
            · exact getProj_sink_mem r S hClosed pid id hsrc hid
            · rcases List.mem_cons.mp hf with rfl | hf
              · exact hid
              · exact hstack f (List.mem_cons.mpr (Or.inr hf))
          case isFalse hsrc =>
            refine ih _ _ ?_ hs
            intro f hf
            rcases List.mem_cons.mp hf with rfl | hf
            · exact hid
            · exact hstack f (List.mem_cons.mpr (Or.inr hf))

theorem mem_enumFrom_snd {α : Type} :
    ∀ (n : Nat) (l : List α) (p : Nat × α), p ∈ List.enumFrom n l → p.2 ∈ l := by
  intro n l
  induction l generalizing n with
  | nil => intro p h; simp [List.enumFrom] at h
  | cons a as ih =>
    intro p h
    rcases List.mem_cons.mp h with rfl | h
    · exact List.mem_cons_self a as
    · exact List.mem_cons.mpr (Or.inr (ih (n + 1) p h))

theorem calculateExecutionMap_subset (r : Realm) (S : List Nat)
    (hClosed : ∀ p ∈ r.projs, (∃ x ∈ p.sources, x ∈ S) → p.sink ∈ S)
    (ids : List Nat) (hids : ∀ k ∈ ids, k ∈ S) :
    ∀ x ∈ (calculateExecutionMap r ids).participatingNodes, x ∈ S := by
  simp only [calculateExecutionMap]
  have main : ∀ (l : List (Nat × Nat)) (s : VisitSt), (∀ p ∈ l, p.2 ∈ S) →
      (∀ x ∈ s.participatingNodes, x ∈ S) →
      ∀ x ∈ (l.foldl (fun s p => visit r (traversalFuel r ids) p.2 p.1 s)
          s).participatingNodes, x ∈ S := by
    intro l
    induction l with
    | nil => exact fun s _ hs => hs
    | cons q l ihl =>
      intro s hl hs
      refine ihl _ (fun p hp => hl p (List.mem_cons.mpr (Or.inr hp))) ?_
      exact visitRun_subset r S hClosed _ _ _
        (fun f hf => by
          rcases List.mem_cons.mp hf with rfl | hf
          · exact hl q (List.mem_cons_self _ _)
          · simp at hf)
        hs
  refine main _ _ ?_ ?_
  · intro p hp
    exact hids p.2 (mem_enumFrom_snd 0 ids p hp)
  · intro x hx
    simp at hx

theorem nmLookupCache_spec :
    ∀ (entries : List ((Nat ⊕ List Nat) × ExecutionMap)) (k : Nat)
      (m : ExecutionMap), getExecutionMap.nmLookupCache entries k = some m →
      (Sum.inl k, m) ∈ entries := by
  intro entries
  induction entries with
  | nil => intro k m h; simp [getExecutionMap.nmLookupCache] at h
  | cons e rest ih =>
    intro k m h
    match e with
    | (Sum.inl k', m') =>
      rw [getExecutionMap.nmLookupCache] at h
      by_cases hk : k' = k
      · subst hk
        rw [if_pos rfl] at h
        cases h
        exact List.mem_cons_self _ _
      · rw [if_neg hk] at h
        exact List.mem_cons.mpr (Or.inr (ih k m h))
    | (Sum.inr ks, m') =>
      rw [getExecutionMap.nmLookupCache] at h
      exact List.mem_cons.mpr (Or.inr (ih k m h))

theorem scanCache_spec :
    ∀ (entries : List ((Nat ⊕ List Nat) × ExecutionMap)) (ids : List Nat)
      (m : ExecutionMap), scanCache entries ids = some m →
      ∃ ks : List Nat, (Sum.inr ks, m) ∈ entries ∧ ks.length = ids.length ∧
        ∀ k ∈ ks, k ∈ ids := by
  intro entries
  induction entries with
  | nil => intro ids m h; simp [scanCache] at h
  | cons e rest ih =>
    intro ids m h
    match e with
    | (Sum.inl k', m') =>
      rw [scanCache] at h
      obtain ⟨ks, hmem, hl, hsub⟩ := ih ids m h
      exact ⟨ks, List.mem_cons.mpr (Or.inr hmem), hl, hsub⟩
    | (Sum.inr ks', m') =>
      rw [scanCache] at h
      by_cases hc : ks'.length = ids.length ∧ ∀ k ∈ ks', k ∈ ids
      · rw [if_pos hc] at h
        cases h
        exact ⟨ks', List.mem_cons_self _ _, hc.1, hc.2⟩
      · rw [if_neg hc] at h
        obtain ⟨ks, hmem, hl, hsub⟩ := ih ids m h
        exact ⟨ks, List.mem_cons.mpr (Or.inr hmem), hl, hsub⟩

theorem getExecutionMap_sound (r : Realm) (ids : List Nat)
    (hc : cacheConsistent r) :
    ∃ ks : List Nat, (∀ k ∈ ks, k ∈ ids) ∧
      (getExecutionMap r ids).1 = calculateExecutionMap r ks := by
  rw [getExecutionMap]
  by_cases hlen : ids.length = 1
  · rw [if_pos hlen]
    obtain ⟨a, rfl⟩ : ∃ a, ids = [a] := by
      cases ids with
      | nil => simp at hlen
      | cons a as =>
        cases as with
        | nil => exact ⟨a, rfl⟩
        | cons b bs => simp at hlen
    cases hit : getExecutionMap.nmLookupCache r.executionMaps ([a].headD 0) with
    | some m =>
      simp only [hit]
      have hments := nmLookupCache_spec r.executionMaps _ m hit
      have hok := hc _ hments
      simp only [cacheEntryOk, decide_eq_true_eq] at hok
      exact ⟨[a], by simp, hok⟩
    | none =>
      simp only [hit]
      exact ⟨[a], by simp, rfl⟩
  · rw [if_neg hlen]
    cases hscan : scanCache r.executionMaps ids with
    | some m =>
      simp only [hscan]
      obtain ⟨ks, hmem, _, hsub⟩ := scanCache_spec r.executionMaps ids m hscan
      have hok := hc _ hmem
      simp only [cacheEntryOk, decide_eq_true_eq] at hok
      exact ⟨ks, hsub, hok⟩
    | none =>
      simp only [hscan]
      exact ⟨ids, fun k hk => hk, rfl⟩

theorem nwneRun_keys_subset (r : Realm) :
    ∀ (fuel : Nat) (stack : List (Nat × List Nat)) (acc : NMap Int × List Nat),
      (nwneRun r fuel stack acc).2 ⊆ acc.2 := by
  intro fuel
  induction fuel with
  | zero => exact fun _ _ => List.Subset.refl _
  | succ fuel ih =>
    intro stack acc
    cases stack with
    | nil => exact List.Subset.refl _
    | cons fr stack' =>
      obtain ⟨key, pids⟩ := fr
      cases pids with
      | nil => exact ih stack' acc
      | cons pid rest =>
        simp only [nwneRun]
        split
        · cases hl : nmLookup acc.1 (getProj r pid).sink with
          | none =>
            simp only [hl]
            exact ih _ _
          | some c =>
            simp only [hl]
            split
            · exact (ih _ _).trans (jsSpliceRemove_subset _ _)
            · exact ih _ _
        · exact ih _ _

theorem notifySubs_log_mem (k : Nat) (val : JVal) :
    ∀ (subs : List (JVal → Bool)) (log : List (Nat × JVal)) (e : Nat × JVal),
      e ∈ (notifySubs k val subs log).1 → e ∈ log ∨ e.1 = k := by
  intro subs
  induction subs with
  | nil => exact fun log e h => Or.inl h
  | cons s rest ih =>
    intro log e h
    simp only [notifySubs] at h
    split at h
    · rcases List.mem_append.mp h with h | h
      · exact Or.inl h
      · simp at h
        exact Or.inr (by simp [h])
    · rcases ih _ e h with h | h
      · rcases List.mem_append.mp h with h | h
        · exact Or.inl h
        · simp at h
          exact Or.inr (by simp [h])
      · exact Or.inr h

theorem pubLoop_log_closed (r : Realm) (values : NMap JVal)
    (pm : NMap (List Nat)) (S : List Nat) (L : List (Nat × JVal)) :
    ∀ (fuel : Nat) (st : LoopSt),
      (∀ k ∈ st.keys, k ∈ S) → (∀ e ∈ st.log, e ∈ L ∨ e.1 ∈ S) →
      ∀ e ∈ (pubLoop r values pm fuel st).log, e ∈ L ∨ e.1 ∈ S := by
  intro fuel
  induction fuel with
  | zero => exact fun st _ hlog => hlog
  | succ fuel ih =>
    intro st hkeysS hlog
    cases hkeys : st.keys with
    | nil => simpa [pubLoop, hkeys] using hlog
    | cons k rest =>
      have hk : k ∈ S := hkeysS k (hkeys ▸ List.mem_cons_self _ _)
      have hrest : ∀ x ∈ rest, x ∈ S := fun x hx =>
        hkeysS x (hkeys ▸ List.mem_cons.mpr (Or.inr hx))
      have hnotify : ∀ e ∈ (notifySubs k
          (nmGetD (processNode r values pm k st.transient st.state).1.transient
            k .undef) (nmGetD r.subscriptions k []) st.log).1,
          e ∈ L ∨ e.1 ∈ S := by
        intro e he
        rcases notifySubs_log_mem k _ _ _ e he with h | h
        · exact hlog e h
        · exact Or.inr (h ▸ hk)
      have hnotify1 : ∀ e ∈ (notifySubs k
          (nmGetD (processNode r values pm k st.transient st.state).1.transient
            k .undef) (nmGetD r.subscriptions k []) st.log).1 ++
            [(k, nmGetD (processNode r values pm k st.transient st.state).1.transient
              k .undef)],
          e ∈ L ∨ e.1 ∈ S := by
        intro e he
        rcases List.mem_append.mp he with h | h
        · exact hnotify e h
        · simp at h
          exact Or.inr (by simp [h, hk])
      simp only [pubLoop, hkeys]
      cases hthrew : (processNode r values pm k st.transient st.state).2 with
      | true =>
        simp only [hthrew, if_true]
        exact hlog
      | false =>
        simp only [hthrew, Bool.false_eq_true, if_false]
        cases hres : (processNode r values pm k st.transient st.state).1.resolved with
        | false =>
          simp only [hres, Bool.false_eq_true, if_false]
          refine ih _ ?_ hlog
          intro x hx
          exact hrest x (nwneRun_keys_subset r _ _ _ hx)
        | true =>
          simp only [hres, if_true]
          cases hn2 : (notifySubs k
              (nmGetD (processNode r values pm k st.transient st.state).1.transient
                k .undef) (nmGetD r.subscriptions k []) st.log).2 with
          | true =>
            simp only [hn2, if_true]
            exact hnotify
          | false =>
            simp only [hn2, Bool.false_eq_true, if_false]
            cases hsing : nmLookup r.singletonSubscriptions k with
            | none =>
              simp only [hsing]
              exact ih _ hrest hnotify
            | some sfn =>
              simp only [hsing]
              cases hsv : sfn (nmGetD
                  (processNode r values pm k st.transient st.state).1.transient
                  k .undef) with
              | true =>
                simp only [hsv, if_true]
                exact hnotify1
              | false =>
                simp only [hsv, Bool.false_eq_true, if_false]
                exact ih _ hrest hnotify1

/-- C6: a projection that lists node `n` only in its `pulls` is never
triggered by `n`.  `S` is any set that contains the whole touched set and is
closed under active-source edges (if any active source of a projection of
the realm is in `S` then so is its sink) — the least such `S` is exactly
what a publish can reach, and the claim's scenario (the sink fed only by
this projection, a publish touching `n` but no active source) yields such an
`S` with the sink outside it.  Conclusion: the cycle adds no notification
for the sink, so every sink entry in the log predates the publish. -/
theorem c6_pull_only_never_triggers (r : Realm) (values : NMap JVal)
    (S : List Nat) (p : Projection) (n : Nat)
    (_hp : p ∈ r.projs) (_hpullMem : n ∈ p.pulls) (_hnotSrc : n ∉ p.sources)
    (_htouched : n ∈ values.map Prod.fst)
    (hS : ∀ k ∈ values.map Prod.fst, k ∈ S)
    (hClosed : ∀ q ∈ r.projs, (∃ x ∈ q.sources, x ∈ S) → q.sink ∈ S)
    (hsink : p.sink ∉ S) (hc : cacheConsistent r) :
    ∀ v : JVal, (p.sink, v) ∈ (pubIn r values).1.log → (p.sink, v) ∈ r.log := by
  intro v hv
  obtain ⟨ks, hks, hmap⟩ := getExecutionMap_sound r (values.map Prod.fst) hc
  have hplan := calculateExecutionMap_subset r S hClosed ks
    (fun k hk => hS k (hks k hk))
  have hlog := pubLoop_log_closed r values
    (getExecutionMap r (values.map Prod.fst)).1.projections S r.log
    (getExecutionMap r (values.map Prod.fst)).1.participatingNodes.length
    ⟨(getExecutionMap r (values.map Prod.fst)).1.participatingNodes,
      (getExecutionMap r (values.map Prod.fst)).1.refCount, r.state, r.state,
      r.log, false⟩
    (by
      intro k hk
      rw [hmap] at hk
      exact hplan k hk)
    (fun e he => Or.inl he)
  have := hlog (p.sink, v) (by
    simpa only [pubIn, pubInWith] using hv)
  rcases this with h | h
  · exact h
  · exact absurd h hsink

/-- C6 witness: the withLatestFrom scenario — node 0 pulled, node 1 the
active source, sink 2 — published into node 0 alone, with `S = [0]`. -/
theorem c6_pull_only_never_triggers_witness :
    getProj pullOnlyRealm 0 ∈ pullOnlyRealm.projs ∧
    (0 ∈ (getProj pullOnlyRealm 0).pulls ∧
      0 ∉ (getProj pullOnlyRealm 0).sources ∧
      0 ∈ ([((0 : Nat), JVal.num 7)].map Prod.fst) ∧
      (∀ k ∈ [((0 : Nat), JVal.num 7)].map Prod.fst, k ∈ [0]) ∧
      (∀ q ∈ pullOnlyRealm.projs, (∃ x ∈ q.sources, x ∈ [0]) → q.sink ∈ [0]) ∧
      (getProj pullOnlyRealm 0).sink ∉ [0] ∧
      cacheConsistent pullOnlyRealm) ∧
    (((getProj pullOnlyRealm 0).sink, JVal.num 9) ∈
        (pubIn pullOnlyRealm [(0, JVal.num 7)]).1.log →
      ((getProj pullOnlyRealm 0).sink, JVal.num 9) ∈ pullOnlyRealm.log) :=
  ⟨List.mem_cons_self _ _,
    ⟨by decide, by decide, by decide, by decide, by decide, by decide,
      fun _ he => absurd he (List.not_mem_nil _)⟩,
    c6_pull_only_never_triggers pullOnlyRealm [(0, JVal.num 7)] [0]
      (getProj pullOnlyRealm 0) 0 (List.mem_cons_self _ _) (by decide) (by decide)
      (by decide) (by decide) (by decide) (by decide)
      (fun _ he => absurd he (List.not_mem_nil _)) (JVal.num 9)⟩

/-- C4 amended: for a single-node publish (the claim's repeated
`pub(a, x)`), a `pubIn` that resolves the plan through the cache behaves
exactly like a run that recomputes the plan from scratch — same State
Store, same subscriber-invocation log, same exception outcome — provided
every cache entry agrees with a fresh computation for its key, which the
engine maintains (`connect` clears the cache and `pubIn` only stores
freshly computed plans).  Plans are never mutated by a publish (the walk
clones the order and the ref-count), which is what makes the cached plan
reusable at all; the permuted multi-key counterexample is the only
deviation the cache introduces. -/
theorem c4_single_key_reuse_refines (r : Realm) (id : Nat) (v : JVal)
    (hc : cacheConsistent r) :
    (pubIn r [(id, v)]).1.state = (pubInNoCache r [(id, v)]).1.state ∧
    (pubIn r [(id, v)]).1.log = (pubInNoCache r [(id, v)]).1.log ∧
    (pubIn r [(id, v)]).2 = (pubInNoCache r [(id, v)]).2 := by
  have hkey : (getExecutionMap r (List.map Prod.fst [(id, v)])).1 =
      calculateExecutionMap r (List.map Prod.fst [(id, v)]) := by
    show (getExecutionMap r [id]).1 = calculateExecutionMap r [id]
    rw [getExecutionMap]
    rw [if_pos (by simp)]
    cases hit : getExecutionMap.nmLookupCache r.executionMaps id with
    | some m =>
      simp only [List.headD, hit]
      have hok := hc _ (nmLookupCache_spec _ _ _ hit)
      simp only [cacheEntryOk, decide_eq_true_eq] at hok
      simpa using hok
    | none => simp [List.headD, hit]
  have hself : pubInWith r [(id, v)]
        (getExecutionMap r (List.map Prod.fst [(id, v)])).1 =
      pubInWith r [(id, v)]
        (calculateExecutionMap r (List.map Prod.fst [(id, v)])) := by
    rw [hkey]
  refine ⟨?_, ?_, ?_⟩ <;> simp only [pubIn, pubInNoCache] <;> rw [hself]

/-- C4 counterexample: reusing a cached plan for a permuted multi-node key
changes the traversal.  `twoNodeRealmCached` holds the plan cached for the
key enumeration `[0, 1]`; publishing `{1: 3, 0: 4}` through the cache
notifies 0 before 1 (the cached key's order), while a run recomputing the
plan from scratch notifies 1 before 0, so the claimed equivalence with a
from-scratch run fails for this publish. -/
theorem c4_permuted_reuse_cex :
    (pubIn twoNodeRealmCached [(1, JVal.num 3), (0, JVal.num 4)]).1.log =
      [(0, JVal.num 1), (1, JVal.num 2), (0, JVal.num 4), (1, JVal.num 3)] ∧
    (pubInNoCache twoNodeRealmCached [(1, JVal.num 3), (0, JVal.num 4)]).1.log =
      [(0, JVal.num 1), (1, JVal.num 2), (1, JVal.num 3), (0, JVal.num 4)] ∧
    (pubIn twoNodeRealmCached [(1, JVal.num 3), (0, JVal.num 4)]).1.log ≠
      (pubInNoCache twoNodeRealmCached [(1, JVal.num 3), (0, JVal.num 4)]).1.log := by
  refine ⟨by decide, by decide, by decide⟩

/-- C4 witness: the cached two-node realm satisfies the cache-consistency
hypothesis, and a single-key publish through its cache coincides with the
from-scratch run. -/
theorem c4_single_key_reuse_refines_witness :
    cacheConsistent twoNodeRealmCached ∧
    ((pubIn twoNodeRealmCached [(0, JVal.num 9)]).1.state =
        (pubInNoCache twoNodeRealmCached [(0, JVal.num 9)]).1.state ∧
      (pubIn twoNodeRealmCached [(0, JVal.num 9)]).1.log =
        (pubInNoCache twoNodeRealmCached [(0, JVal.num 9)]).1.log ∧
      (pubIn twoNodeRealmCached [(0, JVal.num 9)]).2 =
        (pubInNoCache twoNodeRealmCached [(0, JVal.num 9)]).2) := by
  have hc : cacheConsistent twoNodeRealmCached := by
    intro e he
    have hl : twoNodeRealmCached.executionMaps =
        [(Sum.inr [0, 1], calculateExecutionMap twoNodeRealm [0, 1])] := by decide
    rw [hl, List.mem_singleton] at he
    subst he
    decide
  exact ⟨hc, c4_single_key_reuse_refines twoNodeRealmCached 0 (JVal.num 9) hc⟩
